import Mathlib

/-!
Shallow embedding of the circuit-solver server core (`src/Server/Server.js`):
the netlist compiler `convertGraphToNetlist` (lines 74-111) and the solver
process `close` callback of the `/api/solve-circuit` route (lines 242-253).

Modelling conventions:
* JS numbers used as coordinates are modelled as `Int`; component values and
  JSON numbers as `ℚ`.  An edge's `value` field may be a number or the JS
  `undefined` (field absent), modelled by `JVal`.
* JS template interpolation of a number uses `toString`; interpolation of
  `undefined` produces the literal text `"undefined"`.
* A JS `Map` is modelled as an insertion-ordered association list with
  in-place update (`mapSet`) and lookup (`mapGet`).
* `JSON.parse` is a JS-runtime primitive external to the repository; the
  `close` callback is therefore modelled as a function of the two parse
  outcomes (`none` models "`JSON.parse` threw") together with the raw
  stderr buffer, mirroring the callback's control flow exactly.
-/

/-- A canvas node; identity is purely positional (coordinates `x`, `y`). -/
@[ext]
structure Node where
  x : Int
  y : Int
deriving DecidableEq, Repr

/-- The JS value sitting in an edge's `value` field: a number, or
`undefined` when the field is absent. -/
inductive JVal where
  | undef : JVal
  | num : ℚ → JVal
deriving DecidableEq, Repr

/-- String interpolation of a `JVal`, as in the template literal of
Server.js line 107 (`undefined` interpolates to the text "undefined"). -/
def jvalStr : JVal → String
  | JVal.undef => "undefined"
  | JVal.num q => toString q

/-- An edge of the graph: endpoints, component kind, stored value. -/
structure Edge where
  «from» : Node
  «to» : Node
  component : String
  value : JVal
deriving DecidableEq, Repr

/-- The map key of a node, Server.js lines 84/88/102-103: the template
string consisting of x-coordinate, a comma, and y-coordinate. -/
def nodeKey (n : Node) : String :=
  toString n.x ++ "," ++ toString n.y

/-- One step of the ground-selection reduction, Server.js lines 78-82. -/
def groundStep (lowest node : Node) : Node :=
  if node.y > lowest.y then node
  else if node.y = lowest.y ∧ node.x < lowest.x then node
  else lowest

/-- The `reduce` of Server.js lines 78-82 on a graph whose node array is
`n0 :: rest`: the initial accumulator is `nodes[0]` and the reduction then
visits every element of the array, `nodes[0]` included. -/
def groundOf (n0 : Node) (rest : List Node) : Node :=
  List.foldl groundStep n0 (n0 :: rest)

/-- JS `Map.prototype.set`: update in place when the key exists (keeping
insertion order), otherwise append at the end. -/
def mapSet : List (String × String) → String → String → List (String × String)
  | [], k, v => [(k, v)]
  | (k0, v0) :: rest, k, v =>
    if k0 = k then (k, v) :: rest else (k0, v0) :: mapSet rest k v

/-- JS `Map.prototype.get`: `none` models `undefined` (key absent). -/
def mapGet : List (String × String) → String → Option String
  | [], _ => none
  | (k0, v0) :: rest, k => if k0 = k then some v0 else mapGet rest k

/-- One step of the node-labelling loop, Server.js lines 87-90: the ground
key maps to "0"; any other key maps to "n" followed by the counter, which
is post-incremented only in that branch. -/
def nmStep (groundId : String) (acc : List (String × String) × Nat) (n : Node) :
    List (String × String) × Nat :=
  let id := nodeKey n
  if id = groundId then (mapSet acc.1 id "0", acc.2)
  else (mapSet acc.1 id ("n" ++ toString acc.2), acc.2 + 1)

/-- The node-label map built by Server.js lines 85-90 (`nodeMap`,
`nodeCounter` starting at 1), together with the final counter value. -/
def buildNodeMap (nodes : List Node) (groundId : String) :
    List (String × String) × Nat :=
  List.foldl (nmStep groundId) ([], 1) nodes

/-- The component-kind table `typeMap` of Server.js lines 92-95;
`none` models an unrecognized kind. -/
def typeMap (component : String) : Option String :=
  if component = "resistor" then some "R"
  else if component = "capacitor" then some "C"
  else if component = "inductor" then some "L"
  else if component = "voltage_source" then some "V"
  else if component = "current_source" then some "I"
  else if component = "wire" then some "W"
  else none

/-- The per-kind counter object `counts` of Server.js line 96. -/
structure Counts where
  R : Nat
  C : Nat
  L : Nat
  V : Nat
  I : Nat
  W : Nat
deriving DecidableEq, Repr

/-- The literal `{ R:0, C:0, L:0, V:0, I:0, W:0 }` of Server.js line 96. -/
def countsInit : Counts := ⟨0, 0, 0, 0, 0, 0⟩

/-- Read the counter stored under a kind letter. -/
def Counts.get (c : Counts) (t : String) : Nat :=
  if t = "R" then c.R else if t = "C" then c.C else if t = "L" then c.L
  else if t = "V" then c.V else if t = "I" then c.I
  else if t = "W" then c.W else 0

/-- Write the counter stored under a kind letter. -/
def Counts.set (c : Counts) (t : String) (v : Nat) : Counts :=
  if t = "R" then { c with R := v } else if t = "C" then { c with C := v }
  else if t = "L" then { c with L := v } else if t = "V" then { c with V := v }
  else if t = "I" then { c with I := v } else if t = "W" then { c with W := v }
  else c

/-- JS `++counts[type]` (Server.js line 101): pre-increment, returning the
updated object and the incremented value. -/
def bumpCount (c : Counts) (t : String) : Counts × Nat :=
  (c.set t (c.get t + 1), c.get t + 1)

/-- The body of the `edges.forEach` loop, Server.js lines 98-109, acting on
the accumulated `(counts, netlist)` state. -/
def processEdge (nodeMap : List (String × String)) (acc : Counts × String)
    (e : Edge) : Counts × String :=
  match typeMap e.component with
  | none => acc
  | some t =>
    let bumped := bumpCount acc.1 t
    let name := t ++ toString bumped.2
    let n1 := mapGet nodeMap (nodeKey e.«from»)
    let n2 := mapGet nodeMap (nodeKey e.«to»)
    let val := if e.component = "wire" then JVal.num (1 / 1000000) else e.value
    match n1, n2 with
    | some l1, some l2 =>
      (bumped.1,
        acc.2 ++ name ++ " " ++ l1 ++ " " ++ l2 ++ " " ++ jvalStr val ++ "\n")
    | _, _ => (bumped.1, acc.2)

/-- The netlist header literal of Server.js line 97. -/
def netlistHeader : String := "* Auto-generated netlist\n"

/-- `convertGraphToNetlist` of Server.js lines 74-111, on a graph given as
its `nodes` and `edges` arrays. -/
def convertGraphToNetlist (nodes : List Node) (edges : List Edge) :
    Option String :=
  match nodes, edges with
  | [], _ => none
  | _ :: _, [] => none
  | n0 :: rest, e0 :: erest =>
    let groundNode := groundOf n0 rest
    let groundId := nodeKey groundNode
    let nodeMap := (buildNodeMap (n0 :: rest) groundId).1
    let r := List.foldl (processEdge nodeMap) (countsInit, netlistHeader)
      (e0 :: erest)
    some r.2

/-- A JSON value, as produced by the JS runtime's `JSON.parse`. -/
inductive JsonVal where
  | null : JsonVal
  | bool : Bool → JsonVal
  | num : ℚ → JsonVal
  | str : String → JsonVal
  | arr : List JsonVal → JsonVal
  | obj : List (String × JsonVal) → JsonVal
deriving Repr

/-- JS property access `v[k]` on a parsed JSON value other than `null`:
`none` models `undefined` (absent field, or a non-object receiver). -/
def jsonGetField : JsonVal → String → Option JsonVal
  | JsonVal.obj fields, k => (List.find? (fun p => p.1 = k) fields).map (fun p => p.2)
  | _, _ => none

/-- An HTTP response as produced by `res.status(...).json(...)`. -/
structure Response where
  status : Nat
  body : JsonVal

/-- Body of Server.js line 247 after `JSON.stringify` semantics: a
`message` field holding `undefined` is dropped from the serialized body. -/
def clientErrorBody (msg : Option JsonVal) : JsonVal :=
  JsonVal.obj [("error", JsonVal.obj
    (match msg with
     | none => []
     | some m => [("message", m)]))]

/-- Body of Server.js line 249. -/
def engineFailBody (stderrText : String) : JsonVal :=
  JsonVal.obj [("error", JsonVal.obj
    [("message", JsonVal.str "Simulation engine failed"),
     ("details", JsonVal.str stderrText)])]

/-- Body of the catch on Server.js line 252. -/
def parseFailBody : JsonVal :=
  JsonVal.obj [("error", JsonVal.obj
    [("message", JsonVal.str "Failed to parse results")])]

/-- The response computed by the `close` callback, Server.js lines 244-252,
as a function of the exit code and the outcomes of the two `JSON.parse`
calls (`none` = the parse threw).  When stderr parses to `null`, the
property access `errObj.error` on line 247 throws a `TypeError`, which the
`catch` on line 248 turns into the engine-failure response; any other
parsed value `v` yields a 400 response whose message is `v.error`
(`undefined`, hence dropped, when `v` has no such field). -/
def closeTranscode (code : Int) (stderrParse : Option JsonVal)
    (stdoutParse : Option JsonVal) (errorOutput : String) : Response :=
  if code ≠ 0 then
    match stderrParse with
    | some JsonVal.null => ⟨500, engineFailBody errorOutput⟩
    | some v => ⟨400, clientErrorBody (jsonGetField v "error")⟩
    | none => ⟨500, engineFailBody errorOutput⟩
  else
    match stdoutParse with
    | some v => ⟨200, v⟩
    | none => ⟨500, parseFailBody⟩

/-- A filesystem effect performed by the `close` callback. -/
inductive FsEvent where
  | rmWorkspace : Bool → FsEvent
deriving DecidableEq, Repr

/-- The whole `close` callback, Server.js lines 242-253: it first performs
exactly one recursive removal of the workspace directory, inside
`try ... catch(e) \x7b\x7d` (line 243), whose success or failure
(`rmSucceeds`) is swallowed; it then computes the response.  Returned are
the emitted filesystem effects and the response. -/
def closeHandler (rmSucceeds : Bool) (code : Int)
    (stderrParse stdoutParse : Option JsonVal) (errorOutput : String) :
    List FsEvent × Response :=
  ([FsEvent.rmWorkspace rmSucceeds],
   closeTranscode code stderrParse stdoutParse errorOutput)

/-- Whether a JSON value is a number. -/
def isJsonNum : JsonVal → Bool
  | JsonVal.num _ => true
  | _ => false

/-- Modelled from the spec: the Simulation Result shape of spec §3/§6 — a
JSON object with a `time` field holding an array of numbers, every other
field holding an object with `v` and `i` arrays of numbers whose lengths
equal the length of `time`.  (The repository's code performs no such shape
check; this definition exists to compare the code's behaviour against the
spec's words.) -/
def specSimResultShape : JsonVal → Bool
  | JsonVal.obj fields =>
    match (List.find? (fun p => p.1 = "time") fields).map (fun p => p.2) with
    | some (JsonVal.arr ts) =>
      ts.all isJsonNum &&
      fields.all (fun p =>
        p.1 = "time" ||
        match p.2 with
        | JsonVal.obj comp =>
          match (List.find? (fun q => q.1 = "v") comp).map (fun q => q.2),
                (List.find? (fun q => q.1 = "i") comp).map (fun q => q.2) with
          | some (JsonVal.arr vs), some (JsonVal.arr curs) =>
            vs.all isJsonNum && curs.all isJsonNum &&
            (vs.length == ts.length) && (curs.length == ts.length)
          | _, _ => false
        | _ => false)
    | _ => false
  | _ => false

/-! ### Helper lemmas about the edge loop -/

theorem typeMap_letters {comp t : String} (h : typeMap comp = some t) :
    t = "R" ∨ t = "C" ∨ t = "L" ∨ t = "V" ∨ t = "I" ∨ t = "W" := by
  unfold typeMap at h
  split_ifs at h <;> simp_all

theorem Counts.get_set_self (c : Counts) (t : String) (v : Nat)
    (h : t = "R" ∨ t = "C" ∨ t = "L" ∨ t = "V" ∨ t = "I" ∨ t = "W") :
    (c.set t v).get t = v := by
  rcases h with h | h | h | h | h | h <;> subst h <;>
    simp [Counts.set, Counts.get]

theorem processEdge_unrecognized (nm : List (String × String))
    (acc : Counts × String) (e : Edge) (h : typeMap e.component = none) :
    processEdge nm acc e = acc := by
  simp [processEdge, h]

theorem processEdge_counts (nm : List (String × String)) (acc : Counts × String)
    (e : Edge) (t : String) (h : typeMap e.component = some t) :
    (processEdge nm acc e).1 = (bumpCount acc.1 t).1 := by
  simp only [processEdge, h]
  cases mapGet nm (nodeKey e.«from») <;> cases mapGet nm (nodeKey e.«to») <;> rfl

theorem processEdge_orphan (nm : List (String × String)) (acc : Counts × String)
    (e : Edge) (t : String) (h : typeMap e.component = some t)
    (ho : mapGet nm (nodeKey e.«from») = none ∨ mapGet nm (nodeKey e.«to») = none) :
    (processEdge nm acc e).2 = acc.2 := by
  simp only [processEdge, h]
  rcases ho with ho | ho
  · rw [ho]
  · rw [ho]; cases mapGet nm (nodeKey e.«from») <;> rfl

theorem processEdge_emit (nm : List (String × String)) (acc : Counts × String)
    (e : Edge) (t l1 l2 : String) (h : typeMap e.component = some t)
    (h1 : mapGet nm (nodeKey e.«from») = some l1)
    (h2 : mapGet nm (nodeKey e.«to») = some l2) :
    (processEdge nm acc e).2 =
      acc.2 ++ (t ++ toString (Counts.get acc.1 t + 1)) ++ " " ++ l1 ++ " " ++
        l2 ++ " " ++
        jvalStr (if e.component = "wire" then JVal.num (1 / 1000000) else e.value)
        ++ "\n" := by
  simp only [processEdge, h, h1, h2, bumpCount]

theorem processEdge_extends (nm : List (String × String)) (acc : Counts × String)
    (e : Edge) : ∃ u, (processEdge nm acc e).2 = acc.2 ++ u := by
  cases h : typeMap e.component with
  | none =>
    exact ⟨"", by rw [processEdge_unrecognized nm acc e h, String.append_empty]⟩
  | some t =>
    cases h1 : mapGet nm (nodeKey e.«from») with
    | none =>
      exact ⟨"", by
        rw [processEdge_orphan nm acc e t h (Or.inl h1), String.append_empty]⟩
    | some l1 =>
      cases h2 : mapGet nm (nodeKey e.«to») with
      | none =>
        exact ⟨"", by
          rw [processEdge_orphan nm acc e t h (Or.inr h2), String.append_empty]⟩
      | some l2 =>
        have hemit := processEdge_emit nm acc e t l1 l2 h h1 h2
        simp only [String.append_assoc] at hemit
        exact ⟨_, hemit⟩

theorem processEdge_skip (nm : List (String × String)) (acc : Counts × String)
    (e : Edge)
    (h : typeMap e.component = none ∨ mapGet nm (nodeKey e.«from») = none ∨
      mapGet nm (nodeKey e.«to») = none) :
    (processEdge nm acc e).2 = acc.2 := by
  cases ht : typeMap e.component with
  | none => rw [processEdge_unrecognized nm acc e ht]
  | some t =>
    rcases h with h | h
    · rw [ht] at h; cases h
    · exact processEdge_orphan nm acc e t ht h

theorem foldl_processEdge_extends (nm : List (String × String)) :
    ∀ (es : List Edge) (acc : Counts × String),
      ∃ u, (List.foldl (processEdge nm) acc es).2 = acc.2 ++ u := by
  intro es
  induction es with
  | nil => intro acc; exact ⟨"", (String.append_empty _).symm⟩
  | cons e es ih =>
    intro acc
    simp only [List.foldl]
    obtain ⟨u, hu⟩ := processEdge_extends nm acc e
    obtain ⟨w, hw⟩ := ih (processEdge nm acc e)
    exact ⟨u ++ w, by rw [hw, hu, String.append_assoc]⟩

theorem foldl_processEdge_all_skip (nm : List (String × String)) :
    ∀ (es : List Edge) (acc : Counts × String),
      (∀ e ∈ es, typeMap e.component = none ∨
        mapGet nm (nodeKey e.«from») = none ∨ mapGet nm (nodeKey e.«to») = none) →
      (List.foldl (processEdge nm) acc es).2 = acc.2 := by
  intro es
  induction es with
  | nil => intro acc _; rfl
  | cons e es ih =>
    intro acc h
    simp only [List.foldl]
    rw [ih (processEdge nm acc e) (fun e' he' => h e' (List.mem_cons_of_mem e he'))]
    exact processEdge_skip nm acc e (h e (List.mem_cons_self e es))

/-! ### Helper lemmas about the ground-selection reduction -/

theorem groundStep_cases (a b : Node) : groundStep a b = a ∨ groundStep a b = b := by
  unfold groundStep
  split_ifs <;> simp

theorem groundStep_ge_left (a b : Node) :
    a.y < (groundStep a b).y ∨
      (a.y = (groundStep a b).y ∧ (groundStep a b).x ≤ a.x) := by
  unfold groundStep
  split_ifs with h1 h2
  · exact Or.inl h1
  · exact Or.inr ⟨h2.1.symm, le_of_lt h2.2⟩
  · exact Or.inr ⟨rfl, le_refl _⟩

theorem groundStep_ge_right (a b : Node) :
    b.y < (groundStep a b).y ∨
      (b.y = (groundStep a b).y ∧ (groundStep a b).x ≤ b.x) := by
  unfold groundStep
  split_ifs with h1 h2
  · exact Or.inr ⟨rfl, le_refl _⟩
  · exact Or.inr ⟨rfl, le_refl _⟩
  · push_neg at h1 h2
    omega

theorem ground_order_trans {a b c : Node}
    (h1 : a.y < b.y ∨ (a.y = b.y ∧ b.x ≤ a.x))
    (h2 : b.y < c.y ∨ (b.y = c.y ∧ c.x ≤ b.x)) :
    a.y < c.y ∨ (a.y = c.y ∧ c.x ≤ a.x) := by omega

theorem ground_order_antisymm {a b : Node}
    (h1 : a.y < b.y ∨ (a.y = b.y ∧ b.x ≤ a.x))
    (h2 : b.y < a.y ∨ (b.y = a.y ∧ a.x ≤ b.x)) : a = b := by
  ext <;> omega

theorem foldl_groundStep_mem : ∀ (l : List Node) (a : Node),
    List.foldl groundStep a l ∈ a :: l := by
  intro l
  induction l with
  | nil => intro a; simp [List.foldl]
  | cons x xs ih =>
    intro a
    simp only [List.foldl]
    rcases List.mem_cons.mp (ih (groundStep a x)) with h | h
    · rcases groundStep_cases a x with h' | h' <;> rw [h, h'] <;> simp
    · simp [h]

theorem foldl_groundStep_ge : ∀ (l : List Node) (a : Node), ∀ b ∈ a :: l,
    b.y < (List.foldl groundStep a l).y ∨
      (b.y = (List.foldl groundStep a l).y ∧
        (List.foldl groundStep a l).x ≤ b.x) := by
  intro l
  induction l with
  | nil =>
    intro a b hb
    simp only [List.mem_singleton] at hb
    subst hb
    exact Or.inr ⟨rfl, le_refl _⟩
  | cons x xs ih =>
    intro a b hb
    simp only [List.foldl]
    rcases List.mem_cons.mp hb with rfl | hb'
    · exact ground_order_trans (groundStep_ge_left b x)
        (ih (groundStep b x) _ (List.mem_cons_self _ _))
    · rcases List.mem_cons.mp hb' with rfl | hb''
      · exact ground_order_trans (groundStep_ge_right a b)
          (ih (groundStep a b) _ (List.mem_cons_self _ _))
      · exact ih (groundStep a x) b (List.mem_cons_of_mem _ hb'')

/-! ### The claims -/

/-- C3: for every nonempty node list, the ground chosen by
`convertGraphToNetlist` (the value of `groundOf`) is a node of the list
whose y coordinate is greatest, with ties broken by the smallest x
coordinate; consequently, for every permutation of the input node order,
the same coordinate is chosen as ground. -/
theorem groundOf_max_and_perm_invariant (n0 : Node) (rest : List Node)
    (n0' : Node) (rest' : List Node)
    (hp : (n0 :: rest).Perm (n0' :: rest')) :
    groundOf n0 rest ∈ n0 :: rest ∧
    (∀ b ∈ n0 :: rest, b.y < (groundOf n0 rest).y ∨
      (b.y = (groundOf n0 rest).y ∧ (groundOf n0 rest).x ≤ b.x)) ∧
    groundOf n0 rest = groundOf n0' rest' := by
  have hmem : ∀ (m0 : Node) (mrest : List Node), groundOf m0 mrest ∈ m0 :: mrest := by
    intro m0 mrest
    have h := foldl_groundStep_mem (m0 :: mrest) m0
    simp only [groundOf]
    rcases List.mem_cons.mp h with h' | h'
    · rw [h']; exact List.mem_cons_self _ _
    · exact h'
  have hge : ∀ (m0 : Node) (mrest : List Node), ∀ b ∈ m0 :: mrest,
      b.y < (groundOf m0 mrest).y ∨
        (b.y = (groundOf m0 mrest).y ∧ (groundOf m0 mrest).x ≤ b.x) := by
    intro m0 mrest b hb
    exact foldl_groundStep_ge (m0 :: mrest) m0 b (List.mem_cons_of_mem _ hb)
  refine ⟨hmem n0 rest, hge n0 rest, ?_⟩
  have h1 : groundOf n0 rest ∈ n0' :: rest' := hp.mem_iff.mp (hmem n0 rest)
  have h2 : groundOf n0' rest' ∈ n0 :: rest := hp.symm.mem_iff.mp (hmem n0' rest')
  exact ground_order_antisymm (hge n0' rest' _ h1) (hge n0 rest _ h2)

/-- Witness for C3 at a concrete tie: among (2,5) and (1,5) the node (1,5)
is chosen ground in both input orders. -/
theorem groundOf_max_and_perm_invariant_witness :
    groundOf ⟨2, 5⟩ [⟨1, 5⟩] = groundOf ⟨1, 5⟩ [⟨2, 5⟩] ∧
    groundOf ⟨2, 5⟩ [⟨1, 5⟩] = ⟨1, 5⟩ :=
  ⟨(groundOf_max_and_perm_invariant ⟨2, 5⟩ [⟨1, 5⟩] ⟨1, 5⟩ [⟨2, 5⟩]
      (by decide)).2.2, by decide⟩

/-- C7: `convertGraphToNetlist` returns `none` (no netlist) when the node
list or the edge list is empty; when both are nonempty it returns netlist
text beginning with the header line, and when additionally every edge is
skipped because its kind is unrecognized, the result is the header-only
netlist, not `none`.  (The second conjunct also covers edges skipped as
orphans, since it holds whatever the edges are; the orphan-or-unrecognized
all-skip case at the loop level is `foldl_processEdge_all_skip`.) -/
theorem convertGraphToNetlist_none_and_header (nodes : List Node)
    (edges : List Edge) :
    (nodes = [] ∨ edges = [] → convertGraphToNetlist nodes edges = none) ∧
    (nodes ≠ [] → edges ≠ [] → ∃ rest,
      convertGraphToNetlist nodes edges = some (netlistHeader ++ rest)) ∧
    (nodes ≠ [] → edges ≠ [] → (∀ e ∈ edges, typeMap e.component = none) →
      convertGraphToNetlist nodes edges = some netlistHeader) := by
  refine ⟨?_, ?_, ?_⟩
  · rintro (rfl | rfl)
    · rfl
    · cases nodes <;> rfl
  · intro hn he
    cases nodes with
    | nil => exact absurd rfl hn
    | cons n0 rest =>
      cases edges with
      | nil => exact absurd rfl he
      | cons e0 erest =>
        simp only [convertGraphToNetlist]
        obtain ⟨u, hu⟩ := foldl_processEdge_extends
          (buildNodeMap (n0 :: rest) (nodeKey (groundOf n0 rest))).1
          (e0 :: erest) (countsInit, netlistHeader)
        exact ⟨u, by rw [hu]⟩
  · intro hn he hskip
    cases nodes with
    | nil => exact absurd rfl hn
    | cons n0 rest =>
      cases edges with
      | nil => exact absurd rfl he
      | cons e0 erest =>
        simp only [convertGraphToNetlist]
        rw [foldl_processEdge_all_skip
          (buildNodeMap (n0 :: rest) (nodeKey (groundOf n0 rest))).1
          (e0 :: erest) (countsInit, netlistHeader)
          (fun e heq => Or.inl (hskip e heq))]

/-- Witness for C7: a graph whose only edge has the unrecognized kind
"mystery" still compiles to the header-only netlist. -/
theorem convertGraphToNetlist_none_and_header_witness :
    convertGraphToNetlist [⟨0, 0⟩] [⟨⟨0, 0⟩, ⟨0, 0⟩, "mystery", JVal.num 5⟩] =
      some netlistHeader :=
  (convertGraphToNetlist_none_and_header [⟨0, 0⟩]
    [⟨⟨0, 0⟩, ⟨0, 0⟩, "mystery", JVal.num 5⟩]).2.2
    (by simp) (by simp) (by decide)

/-- C2: the edge loop keeps six per-kind counters starting at 0; an edge of
unrecognized kind produces no line and changes no counter; a recognized
edge bumps its kind's counter even when an endpoint is missing from the
node map (in which case no line is emitted), and an emitted line is named
with the bumped counter value — the first resistor is `R1`, not `R0`. -/
theorem processEdge_counter_discipline (nm : List (String × String))
    (acc : Counts × String) (e : Edge) :
    (typeMap e.component = none → processEdge nm acc e = acc) ∧
    (∀ t, typeMap e.component = some t →
      (processEdge nm acc e).1 = (bumpCount acc.1 t).1 ∧
      Counts.get (processEdge nm acc e).1 t = Counts.get acc.1 t + 1 ∧
      ((mapGet nm (nodeKey e.«from») = none ∨
          mapGet nm (nodeKey e.«to») = none) →
        (processEdge nm acc e).2 = acc.2) ∧
      (∀ l1 l2, mapGet nm (nodeKey e.«from») = some l1 →
        mapGet nm (nodeKey e.«to») = some l2 →
        (processEdge nm acc e).2 =
          acc.2 ++ (t ++ toString (Counts.get acc.1 t + 1)) ++ " " ++ l1 ++
            " " ++ l2 ++ " " ++
            jvalStr (if e.component = "wire" then JVal.num (1 / 1000000)
              else e.value) ++ "\n")) := by
  refine ⟨processEdge_unrecognized nm acc e, ?_⟩
  intro t ht
  refine ⟨processEdge_counts nm acc e t ht, ?_, ?_, ?_⟩
  · rw [processEdge_counts nm acc e t ht]
    exact Counts.get_set_self acc.1 t _ (typeMap_letters ht)
  · exact fun h => processEdge_skip nm acc e (Or.inr h)
  · exact fun l1 l2 h1 h2 => processEdge_emit nm acc e t l1 l2 ht h1 h2

/-- Witness for C2: a lone resistor edge whose endpoints are absent from
the (empty) node map emits nothing yet bumps the R counter from 0 to 1. -/
theorem processEdge_counter_discipline_witness :
    (processEdge [] (countsInit, netlistHeader)
      ⟨⟨0, 0⟩, ⟨1, 1⟩, "resistor", JVal.num 5⟩).2 = netlistHeader ∧
    Counts.get (processEdge [] (countsInit, netlistHeader)
      ⟨⟨0, 0⟩, ⟨1, 1⟩, "resistor", JVal.num 5⟩).1 "R" =
      Counts.get countsInit "R" + 1 :=
  ⟨((processEdge_counter_discipline [] (countsInit, netlistHeader)
      ⟨⟨0, 0⟩, ⟨1, 1⟩, "resistor", JVal.num 5⟩).2 "R" (by decide)).2.2.1
      (Or.inl rfl),
   ((processEdge_counter_discipline [] (countsInit, netlistHeader)
      ⟨⟨0, 0⟩, ⟨1, 1⟩, "resistor", JVal.num 5⟩).2 "R" (by decide)).2.1⟩

/-- C5: an emitted netlist line of a `wire` edge carries the value 1e-6
(the rational 1/1000000) regardless of the edge's stored value, while an
emitted line of any other recognized kind carries the stored value
verbatim. -/
theorem processEdge_wire_value_override (nm : List (String × String))
    (acc : Counts × String) (e : Edge) (l1 l2 : String)
    (h1 : mapGet nm (nodeKey e.«from») = some l1)
    (h2 : mapGet nm (nodeKey e.«to») = some l2) :
    (e.component = "wire" →
      (processEdge nm acc e).2 =
        acc.2 ++ ("W" ++ toString (Counts.get acc.1 "W" + 1)) ++ " " ++ l1 ++
          " " ++ l2 ++ " " ++ jvalStr (JVal.num (1 / 1000000)) ++ "\n") ∧
    (∀ t, typeMap e.component = some t → e.component ≠ "wire" →
      (processEdge nm acc e).2 =
        acc.2 ++ (t ++ toString (Counts.get acc.1 t + 1)) ++ " " ++ l1 ++
          " " ++ l2 ++ " " ++ jvalStr e.value ++ "\n") := by
  constructor
  · intro hw
    have ht : typeMap e.component = some "W" := by rw [hw]; decide
    have hemit := processEdge_emit nm acc e "W" l1 l2 ht h1 h2
    rw [hemit, if_pos hw]
  · intro t ht hw
    have hemit := processEdge_emit nm acc e t l1 l2 ht h1 h2
    rw [hemit, if_neg hw]

/-- Witness for C5: a wire edge with stored value 2 still emits 1/1000000. -/
theorem processEdge_wire_value_override_witness :
    (processEdge [("0,0", "n1"), ("0,10", "0")] (countsInit, netlistHeader)
      ⟨⟨0, 0⟩, ⟨0, 10⟩, "wire", JVal.num 2⟩).2 =
      netlistHeader ++ ("W" ++ toString (Counts.get countsInit "W" + 1)) ++
        " " ++ "n1" ++ " " ++ "0" ++ " " ++ jvalStr (JVal.num (1 / 1000000)) ++
        "\n" :=
  (processEdge_wire_value_override [("0,0", "n1"), ("0,10", "0")]
    (countsInit, netlistHeader) ⟨⟨0, 0⟩, ⟨0, 10⟩, "wire", JVal.num 2⟩
    "n1" "0" (by decide) (by decide)).1 rfl

/-- C10: component values are never validated or converted (apart from the
wire override): a recognized non-wire edge whose `value` field is absent
(JS `undefined`) is still emitted, with the literal text "undefined" in
the value position of its netlist line; in particular the whole conversion
still succeeds on such input. -/
theorem processEdge_undefined_value (nm : List (String × String))
    (acc : Counts × String) (e : Edge) (t l1 l2 : String)
    (ht : typeMap e.component = some t) (hw : e.component ≠ "wire")
    (hv : e.value = JVal.undef)
    (h1 : mapGet nm (nodeKey e.«from») = some l1)
    (h2 : mapGet nm (nodeKey e.«to») = some l2) :
    (processEdge nm acc e).2 =
      acc.2 ++ (t ++ toString (Counts.get acc.1 t + 1)) ++ " " ++ l1 ++
        " " ++ l2 ++ " " ++ "undefined" ++ "\n" ∧
    convertGraphToNetlist [⟨0, 0⟩, ⟨0, 10⟩]
      [⟨⟨0, 0⟩, ⟨0, 10⟩, "resistor", JVal.undef⟩] =
      some "* Auto-generated netlist\nR1 n1 0 undefined\n" := by
  constructor
  · have hemit := processEdge_emit nm acc e t l1 l2 ht h1 h2
    rw [hemit, if_neg hw, hv]
    rfl
  · rfl

/-- Witness for C10: a resistor edge with an absent value, looked up in a
two-entry node map, emits the text "undefined" as its value. -/
theorem processEdge_undefined_value_witness :
    (processEdge [("0,0", "n1"), ("0,10", "0")] (countsInit, netlistHeader)
      ⟨⟨0, 0⟩, ⟨0, 10⟩, "resistor", JVal.undef⟩).2 =
      netlistHeader ++ ("R" ++ toString (Counts.get countsInit "R" + 1)) ++
        " " ++ "n1" ++ " " ++ "0" ++ " " ++ "undefined" ++ "\n" :=
  (processEdge_undefined_value [("0,0", "n1"), ("0,10", "0")]
    (countsInit, netlistHeader) ⟨⟨0, 0⟩, ⟨0, 10⟩, "resistor", JVal.undef⟩
    "R" "n1" "0" (by decide) (by decide) rfl (by decide) (by decide)).1

/-- C9: duplicate node coordinates each consume a fresh label-counter
value, the later entry overwriting the earlier in the map; the label
actually used for coordinate (0,0) in nodes [(0,0),(0,0),(5,5)] (ground
(5,5)) is "n2", the label "n1" is never used, and the emitted resistor
line reads `R1 n2 0 7`. -/
theorem duplicate_nodes_label_overwrite :
    (buildNodeMap [⟨0, 0⟩, ⟨0, 0⟩, ⟨5, 5⟩] "5,5").1 =
      [("0,0", "n2"), ("5,5", "0")] ∧
    mapGet (buildNodeMap [⟨0, 0⟩, ⟨0, 0⟩, ⟨5, 5⟩] "5,5").1 "0,0" = some "n2" ∧
    convertGraphToNetlist [⟨0, 0⟩, ⟨0, 0⟩, ⟨5, 5⟩]
      [⟨⟨0, 0⟩, ⟨5, 5⟩, "resistor", JVal.num 7⟩] =
      some "* Auto-generated netlist\nR1 n2 0 7\n" ∧
    "n1" ∉ ((buildNodeMap [⟨0, 0⟩, ⟨0, 0⟩, ⟨5, 5⟩] "5,5").1.map Prod.snd) :=
  ⟨rfl, rfl, rfl, by decide⟩

/-- C1 counterexample: the solver exits nonzero with a stderr buffer that
is valid JSON but lacks the `error` field (the parse outcome is the object
with the single field `foo`); the handler returns status 400 — not the
500 engine failure the claim requires for stderr lacking the field. -/
theorem closeTranscode_missing_error_field_counterexample :
    (closeTranscode 1 (some (JsonVal.obj [("foo", JsonVal.num 1)])) none
      "diag").status = 400 ∧
    (closeTranscode 1 (some (JsonVal.obj [("foo", JsonVal.num 1)])) none
      "diag").status ≠ 500 :=
  ⟨rfl, by decide⟩

/-- C1 (amended): when the solver exits nonzero, the handler first parses
stderr as JSON.  If the parse throws, or the parsed value is `null` (so
that the access `errObj.error` itself throws), the handler returns the
opaque 500 engine failure whose body carries the generic primary message
with the raw stderr attached as `details`.  If stderr parses to any
non-null JSON value `v`, the handler returns a 400 response whose message
is `v`'s `error` field — even when that field is absent, in which case the
message is simply dropped from the body. -/
theorem closeTranscode_nonzero_exit (code : Int) (sp op : Option JsonVal)
    (errText : String) (hc : code ≠ 0) :
    (sp = none →
      closeTranscode code sp op errText = ⟨500, engineFailBody errText⟩) ∧
    (sp = some JsonVal.null →
      closeTranscode code sp op errText = ⟨500, engineFailBody errText⟩) ∧
    (∀ v, sp = some v → v ≠ JsonVal.null →
      closeTranscode code sp op errText =
        ⟨400, clientErrorBody (jsonGetField v "error")⟩) := by
  refine ⟨?_, ?_, ?_⟩
  · rintro rfl
    unfold closeTranscode
    rw [if_pos hc]
  · rintro rfl
    unfold closeTranscode
    rw [if_pos hc]
  · intro v hsp hv
    subst hsp
    unfold closeTranscode
    rw [if_pos hc]
    cases v with
    | null => exact absurd rfl hv
    | bool b => rfl
    | num q => rfl
    | str s => rfl
    | arr xs => rfl
    | obj fs => rfl

/-- Witness for C1 (amended): stderr parsing to an object with an `error`
field yields a 400 response carrying that field. -/
theorem closeTranscode_nonzero_exit_witness :
    closeTranscode 1 (some (JsonVal.obj [("error", JsonVal.str
      "singular matrix")])) none "diag" =
      ⟨400, clientErrorBody (jsonGetField
        (JsonVal.obj [("error", JsonVal.str "singular matrix")]) "error")⟩ :=
  (closeTranscode_nonzero_exit 1
    (some (JsonVal.obj [("error", JsonVal.str "singular matrix")])) none
    "diag" (by decide)).2.2 _ rfl (fun h => JsonVal.noConfusion h)

/-- C4 counterexample: with exit code 0 and a stdout that parses to the
JSON number 42 — which does not match the Simulation Result shape — the
handler still returns it as the 200 success payload: the code performs no
shape validation, contrary to the claim that only a conforming stdout is
returned. -/
theorem closeTranscode_success_shape_unchecked :
    closeTranscode 0 none (some (JsonVal.num 42)) "" =
      ⟨200, JsonVal.num 42⟩ ∧
    specSimResultShape (JsonVal.num 42) = false :=
  ⟨rfl, rfl⟩

/-- C4 (amended): when the solver exits with code 0, the handler parses
the full stdout buffer as JSON; a parse failure is reported as the 500
response with the fixed body `parseFailBody`, which does not contain the
raw stdout; a successful parse of any JSON value is returned verbatim as
the 200 success payload, with no validation against the Simulation Result
shape. -/
theorem closeTranscode_zero_exit (sp op : Option JsonVal) (errText : String) :
    (op = none → closeTranscode 0 sp op errText = ⟨500, parseFailBody⟩) ∧
    (∀ v, op = some v → closeTranscode 0 sp op errText = ⟨200, v⟩) := by
  constructor
  · rintro rfl
    rfl
  · rintro v rfl
    rfl

/-- Witness for C4 (amended): a failed stdout parse yields the fixed 500
parse-failure response. -/
theorem closeTranscode_zero_exit_witness :
    closeTranscode 0 none none "whatever" = ⟨500, parseFailBody⟩ :=
  (closeTranscode_zero_exit none none "whatever").1 rfl

/-- C8: on every exit path of the `close` callback the workspace directory
is removed exactly once (one `rmWorkspace` effect), the removal's outcome
(success or swallowed failure) is never surfaced, and the response is
exactly the one determined by the exit code and output transcoding,
independent of whether the removal succeeded. -/
theorem closeHandler_cleanup_once (rmOk rmOk' : Bool) (code : Int)
    (sp op : Option JsonVal) (errText : String) :
    (closeHandler rmOk code sp op errText).1 = [FsEvent.rmWorkspace rmOk] ∧
    (closeHandler rmOk code sp op errText).1.length = 1 ∧
    (closeHandler rmOk code sp op errText).2 =
      closeTranscode code sp op errText ∧
    (closeHandler rmOk code sp op errText).2 =
      (closeHandler rmOk' code sp op errText).2 :=
  ⟨rfl, rfl, rfl, rfl⟩

theorem toDigitsCore_spec : ∀ (fuel n : ℕ) (ds : List Char), n < fuel →
    Nat.toDigitsCore 10 fuel n ds =
      (if n = 0 then ['0']
       else ((Nat.digits 10 n).map Nat.digitChar).reverse) ++ ds := by
  intro fuel
  induction fuel with
  | zero => intro n ds h; exact absurd h (Nat.not_lt_zero n)
  | succ f ih =>
    intro n ds h
    simp only [Nat.toDigitsCore]
    by_cases hn : n = 0
    · subst hn; rfl
    · by_cases h10 : n / 10 = 0
      · rw [if_pos h10, if_neg hn,
          Nat.digits_def' (by norm_num) (Nat.pos_of_ne_zero hn), h10]
        simp
      · rw [if_neg h10, if_neg hn,
          Nat.digits_def' (by norm_num) (Nat.pos_of_ne_zero hn)]
        have hlt : n / 10 < f := by
          have := Nat.div_lt_self (Nat.pos_of_ne_zero hn) (by norm_num : 1 < 10)
          omega
        rw [ih (n / 10) (Nat.digitChar (n % 10) :: ds) hlt, if_neg h10]
        simp

theorem toDigits_eq (n : ℕ) :
    Nat.toDigits 10 n =
      if n = 0 then ['0']
      else ((Nat.digits 10 n).map Nat.digitChar).reverse := by
  rw [Nat.toDigits, toDigitsCore_spec (n + 1) n [] (Nat.lt_succ_self n),
    List.append_nil]

theorem digitChar_inj_lt10 : ∀ a < 10, ∀ b < 10,
    Nat.digitChar a = Nat.digitChar b → a = b := by decide

theorem map_digitChar_inj : ∀ (l1 l2 : List ℕ), (∀ x ∈ l1, x < 10) →
    (∀ x ∈ l2, x < 10) → l1.map Nat.digitChar = l2.map Nat.digitChar →
    l1 = l2 := by
  intro l1
  induction l1 with
  | nil =>
    intro l2 _ _ h
    cases l2 with
    | nil => rfl
    | cons y ys => simp at h
  | cons x xs ih =>
    intro l2 h1 h2 h
    cases l2 with
    | nil => simp at h
    | cons y ys =>
      simp only [List.map_cons, List.cons.injEq] at h
      have hx := digitChar_inj_lt10 x (h1 x (List.mem_cons_self x xs)) y
        (h2 y (List.mem_cons_self y ys)) h.1
      have hrest := ih ys (fun z hz => h1 z (List.mem_cons_of_mem x hz))
        (fun z hz => h2 z (List.mem_cons_of_mem y hz)) h.2
      rw [hx, hrest]

theorem natToString_injective : Function.Injective (toString : ℕ → String) := by
  intro a b h
  have hdata : (Nat.toDigits 10 a) = (Nat.toDigits 10 b) := by
    have h2 := congrArg String.data h
    simpa [toString, Nat.repr, List.asString] using h2
  rw [toDigits_eq, toDigits_eq] at hdata
  by_cases ha : a = 0 <;> by_cases hb : b = 0
  · rw [ha, hb]
  · rw [if_pos ha, if_neg hb] at hdata
    exfalso
    have hrev := congrArg List.reverse hdata
    simp only [List.reverse_reverse] at hrev
    have : (Nat.digits 10 b).map Nat.digitChar = ['0'] := hrev.symm
    have hb0 : Nat.digits 10 b = [0] := by
      apply map_digitChar_inj
      · exact fun x hx => Nat.digits_lt_base (by norm_num) hx
      · intro x hx; simp at hx; omega
      · simpa using this
    have := Nat.ofDigits_digits 10 b
    rw [hb0] at this
    simp [Nat.ofDigits] at this
    exact hb this.symm
  · rw [if_neg ha, if_pos hb] at hdata
    exfalso
    have hrev := congrArg List.reverse hdata
    simp only [List.reverse_reverse] at hrev
    have : (Nat.digits 10 a).map Nat.digitChar = ['0'] := by simpa using hrev
    have ha0 : Nat.digits 10 a = [0] := by
      apply map_digitChar_inj
      · exact fun x hx => Nat.digits_lt_base (by norm_num) hx
      · intro x hx; simp at hx; omega
      · simpa using this
    have := Nat.ofDigits_digits 10 a
    rw [ha0] at this
    simp [Nat.ofDigits] at this
    exact ha this.symm
  · rw [if_neg ha, if_neg hb] at hdata
    have hrev := congrArg List.reverse hdata
    simp only [List.reverse_reverse] at hrev
    have hdig : Nat.digits 10 a = Nat.digits 10 b :=
      map_digitChar_inj _ _
        (fun x hx => Nat.digits_lt_base (by norm_num) hx)
        (fun x hx => Nat.digits_lt_base (by norm_num) hx) hrev
    calc a = Nat.ofDigits 10 (Nat.digits 10 a) := (Nat.ofDigits_digits 10 a).symm
    _ = Nat.ofDigits 10 (Nat.digits 10 b) := by rw [hdig]
    _ = b := Nat.ofDigits_digits 10 b

theorem label_ne_zero (j : ℕ) : "n" ++ toString j ≠ "0" := by
  intro h
  have := congrArg String.data h
  rw [String.data_append] at this
  simp at this

theorem label_inj {j k : ℕ} (h : "n" ++ toString j = "n" ++ toString k) :
    j = k := by
  have hd := congrArg String.data h
  rw [String.data_append, String.data_append] at hd
  have : (toString j).data = (toString k).data := by
    simpa using hd
  exact natToString_injective (by
    cases hsj : toString j
    cases hsk : toString k
    rw [hsj, hsk] at this
    simp_all)

theorem mapGet_mapSet_self : ∀ (m : List (String × String)) (k v : String),
    mapGet (mapSet m k v) k = some v := by
  intro m k v
  induction m with
  | nil => simp [mapSet, mapGet]
  | cons p rest ih =>
    by_cases h : p.1 = k
    · simp [mapSet, h, mapGet]
    · simp [mapSet, h, mapGet, ih]

theorem mapGet_mapSet_ne : ∀ (m : List (String × String)) (k k' v : String),
    k' ≠ k → mapGet (mapSet m k v) k' = mapGet m k' := by
  intro m k k' v hne
  induction m with
  | nil => simp [mapSet, mapGet, Ne.symm hne]
  | cons p rest ih =>
    by_cases h : p.1 = k
    · simp only [mapSet, h, if_pos rfl]
      simp [mapGet, Ne.symm hne, h]
    · simp only [mapSet, if_neg h]
      by_cases h2 : p.1 = k'
      · simp [mapGet, h2]
      · simp [mapGet, h2, ih]

theorem mapSet_append : ∀ (m : List (String × String)) (k v : String),
    k ∉ m.map Prod.fst → mapSet m k v = m ++ [(k, v)] := by
  intro m k v h
  induction m with
  | nil => rfl
  | cons p rest ih =>
    simp only [List.map_cons, List.mem_cons] at h
    push_neg at h
    have hne : p.1 ≠ k := fun he => h.1 (Eq.symm he)
    simp [mapSet, hne, ih h.2]

theorem mapSet_split : ∀ (m : List (String × String)) (k v : String),
    k ∈ m.map Prod.fst →
    ∃ m1 w m2, m = m1 ++ (k, w) :: m2 ∧ k ∉ m1.map Prod.fst ∧
      mapSet m k v = m1 ++ (k, v) :: m2 := by
  intro m k v h
  induction m with
  | nil => simp at h
  | cons p rest ih =>
    by_cases hp : p.1 = k
    · refine ⟨[], p.2, rest, ?_, by simp, ?_⟩
      · simp [← hp]
      · simp [mapSet, hp]
    · simp only [List.map_cons, List.mem_cons] at h
      rcases h with h | h
      · exact absurd h.symm hp
      · obtain ⟨m1, w, m2, hm, hk, hs⟩ := ih h
        refine ⟨p :: m1, w, m2, by rw [hm]; rfl, ?_, ?_⟩
        · simp only [List.map_cons, List.mem_cons]
          push_neg
          exact ⟨fun he => hp he.symm, hk⟩
        · simp only [mapSet, if_neg hp]
          rw [hs]
          rfl

theorem digitChar_isDigit : ∀ d < 10, (Nat.digitChar d).isDigit = true := by decide

theorem natToString_chars (n : ℕ) :
    ∀ ch ∈ (toString n).data, ch.isDigit = true := by
  intro ch hch
  have hdata : (toString n).data = Nat.toDigits 10 n := by
    simp [toString, Nat.repr, List.asString]
  rw [hdata, toDigits_eq] at hch
  by_cases hn : n = 0
  · rw [if_pos hn] at hch
    simp at hch
    rw [hch]
    decide
  · rw [if_neg hn] at hch
    rw [List.mem_reverse, List.mem_map] at hch
    obtain ⟨d, hd, rfl⟩ := hch
    exact digitChar_isDigit d (Nat.digits_lt_base (by norm_num) hd)

theorem natToString_ne_nil (n : ℕ) : (toString n).data ≠ [] := by
  have hdata : (toString n).data = Nat.toDigits 10 n := by
    simp [toString, Nat.repr, List.asString]
  rw [hdata, toDigits_eq]
  by_cases hn : n = 0
  · simp [hn]
  · rw [if_neg hn]
    simp only [ne_eq, List.reverse_eq_nil_iff, List.map_eq_nil_iff]
    exact Nat.digits_ne_nil_iff_ne_zero.mpr hn

theorem string_data_inj : ∀ {s t : String}, s.data = t.data → s = t := by
  intro s t h
  cases s
  cases t
  exact congrArg String.mk h

theorem intToString_ofNat (m : ℕ) :
    (toString (Int.ofNat m)).data = (toString m).data := rfl

theorem intToString_negSucc (m : ℕ) :
    (toString (Int.negSucc m)).data = '-' :: (toString (m + 1)).data := by
  show ("-" ++ toString (m + 1)).data = _
  rw [String.data_append]
  rfl

theorem intToString_injective : Function.Injective (toString : ℤ → String) := by
  intro a b h
  have hd := congrArg String.data h
  cases a with
  | ofNat m =>
    cases b with
    | ofNat m' =>
      rw [intToString_ofNat, intToString_ofNat] at hd
      rw [natToString_injective (string_data_inj hd)]
    | negSucc m' =>
      rw [intToString_ofNat, intToString_negSucc] at hd
      exfalso
      cases hm : (toString m).data with
      | nil => exact natToString_ne_nil m hm
      | cons c cs =>
        rw [hm] at hd
        injection hd with h1 _
        have hdig := natToString_chars m c (by rw [hm]; exact List.mem_cons_self _ _)
        rw [h1] at hdig
        simp at hdig
  | negSucc m =>
    cases b with
    | ofNat m' =>
      rw [intToString_negSucc, intToString_ofNat] at hd
      exfalso
      cases hm : (toString m').data with
      | nil => exact natToString_ne_nil m' hm
      | cons c cs =>
        rw [hm] at hd
        injection hd with h1 _
        have hdig := natToString_chars m' c (by rw [hm]; exact List.mem_cons_self _ _)
        rw [← h1] at hdig
        simp at hdig
    | negSucc m' =>
      rw [intToString_negSucc, intToString_negSucc] at hd
      injection hd with _ hd'
      have hmm := natToString_injective (string_data_inj hd')
      have hm : m = m' := by omega
      rw [hm]

theorem intToString_no_comma (i : ℤ) : ',' ∉ (toString i).data := by
  intro hmem
  cases i with
  | ofNat m =>
    rw [intToString_ofNat] at hmem
    have := natToString_chars m ',' hmem
    simp at this
  | negSucc m =>
    rw [intToString_negSucc] at hmem
    rcases List.mem_cons.mp hmem with h | h
    · simp at h
    · have := natToString_chars (m + 1) ',' h
      simp at this

theorem append_comma_inj : ∀ (l1 l2 r1 r2 : List Char), ',' ∉ l1 → ',' ∉ l2 →
    l1 ++ ',' :: r1 = l2 ++ ',' :: r2 → l1 = l2 ∧ r1 = r2 := by
  intro l1
  induction l1 with
  | nil =>
    intro l2 r1 r2 _ h2 h
    cases l2 with
    | nil =>
      simp only [List.nil_append] at h
      injection h with _ h'
      exact ⟨rfl, h'⟩
    | cons c l2' =>
      simp only [List.nil_append, List.cons_append] at h
      injection h with hc _
      subst hc
      exact absurd (List.mem_cons_self _ _) h2
  | cons c l1' ih =>
    intro l2 r1 r2 h1 h2 h
    cases l2 with
    | nil =>
      simp only [List.cons_append, List.nil_append] at h
      injection h with hc _
      subst hc
      exact absurd (List.mem_cons_self _ _) h1
    | cons d l2' =>
      simp only [List.cons_append] at h
      injection h with hc h'
      have hrec := ih l2' r1 r2 (fun hx => h1 (List.mem_cons_of_mem c hx))
        (fun hx => h2 (List.mem_cons_of_mem d hx)) h'
      exact ⟨by rw [hc, hrec.1], hrec.2⟩

theorem nodeKey_injective : Function.Injective nodeKey := by
  intro a b h
  have hd := congrArg String.data h
  simp only [nodeKey, String.data_append] at hd
  have hd' : (toString a.x).data ++ ',' :: (toString a.y).data =
      (toString b.x).data ++ ',' :: (toString b.y).data := by
    simpa [List.append_assoc] using hd
  obtain ⟨hx, hy⟩ := append_comma_inj _ _ _ _
    (intToString_no_comma a.x) (intToString_no_comma b.x) hd'
  have hxx : a.x = b.x := intToString_injective (string_data_inj hx)
  have hyy : a.y = b.y := intToString_injective (string_data_inj hy)
  ext <;> assumption

theorem nmStep_fst (gid : String) (m : List (String × String)) (c : ℕ)
    (n : Node) : (nmStep gid (m, c) n).1 =
      mapSet m (nodeKey n) (if nodeKey n = gid then "0" else "n" ++ toString c) := by
  simp only [nmStep]
  split_ifs <;> rfl

theorem nmStep_snd (gid : String) (m : List (String × String)) (c : ℕ)
    (n : Node) : (nmStep gid (m, c) n).2 =
      if nodeKey n = gid then c else c + 1 := by
  simp only [nmStep]
  split_ifs <;> rfl

theorem fresh_label_not_mem (gid : String) (m : List (String × String)) (c : ℕ)
    (hent : ∀ p ∈ m, (p.1 = gid → p.2 = "0") ∧
      (p.1 ≠ gid → ∃ j, 1 ≤ j ∧ j < c ∧ p.2 = "n" ++ toString j)) :
    ("n" ++ toString c) ∉ m.map Prod.snd := by
  intro hmem
  rw [List.mem_map] at hmem
  obtain ⟨p, hp, hv⟩ := hmem
  by_cases hg : p.1 = gid
  · have h0 := (hent p hp).1 hg
    rw [h0] at hv
    exact label_ne_zero c hv.symm
  · obtain ⟨j, _, hj, hl⟩ := (hent p hp).2 hg
    rw [hl] at hv
    exact absurd (label_inj hv) (Nat.ne_of_lt hj)

theorem zero_label_not_mem (gid : String) (m : List (String × String)) (c : ℕ)
    (hent : ∀ p ∈ m, (p.1 = gid → p.2 = "0") ∧
      (p.1 ≠ gid → ∃ j, 1 ≤ j ∧ j < c ∧ p.2 = "n" ++ toString j))
    (hnot : gid ∉ m.map Prod.fst) : "0" ∉ m.map Prod.snd := by
  intro hmem
  rw [List.mem_map] at hmem
  obtain ⟨p, hp, hv⟩ := hmem
  by_cases hg : p.1 = gid
  · exact hnot (List.mem_map.mpr ⟨p, hp, hg⟩)
  · obtain ⟨j, _, _, hl⟩ := (hent p hp).2 hg
    rw [hl] at hv
    exact label_ne_zero j hv

theorem nmStep_inv (gid : String) (m : List (String × String)) (c : ℕ) (n : Node)
    (hent : ∀ p ∈ m, (p.1 = gid → p.2 = "0") ∧
      (p.1 ≠ gid → ∃ j, 1 ≤ j ∧ j < c ∧ p.2 = "n" ++ toString j))
    (hvals : (m.map Prod.snd).Nodup)
    (hkeys : (m.map Prod.fst).Nodup)
    (hc : 1 ≤ c) :
    (∀ p ∈ (nmStep gid (m, c) n).1, (p.1 = gid → p.2 = "0") ∧
      (p.1 ≠ gid → ∃ j, 1 ≤ j ∧ j < (nmStep gid (m, c) n).2 ∧
        p.2 = "n" ++ toString j)) ∧
    ((nmStep gid (m, c) n).1.map Prod.snd).Nodup ∧
    ((nmStep gid (m, c) n).1.map Prod.fst).Nodup ∧
    1 ≤ (nmStep gid (m, c) n).2 := by
  rw [nmStep_fst gid m c n, nmStep_snd gid m c n]
  by_cases hid : nodeKey n = gid
  · rw [if_pos hid, if_pos hid]
    by_cases hin : nodeKey n ∈ m.map Prod.fst
    · obtain ⟨m1, w, m2, hm, _, hs⟩ := mapSet_split m (nodeKey n) "0" hin
      have hw : w = "0" := by
        have hmem : ((nodeKey n, w) : String × String) ∈ m := by
          rw [hm]; exact List.mem_append_right _ (List.mem_cons_self _ _)
        exact (hent _ hmem).1 hid
      have hsame : mapSet m (nodeKey n) "0" = m := by
        rw [hs, hm, hw]
      rw [hsame]
      exact ⟨hent, hvals, hkeys, hc⟩
    · rw [mapSet_append m (nodeKey n) "0" hin]
      refine ⟨?_, ?_, ?_, hc⟩
      · intro p hp
        rcases List.mem_append.mp hp with hp | hp
        · exact hent p hp
        · simp only [List.mem_singleton] at hp
          subst hp
          exact ⟨fun _ => rfl, fun hne => absurd hid hne⟩
      · rw [List.map_append, List.nodup_append]
        refine ⟨hvals, by simp, ?_⟩
        intro a ha hb
        simp only [List.map_cons, List.map_nil, List.mem_singleton] at hb
        subst hb
        exact zero_label_not_mem gid m c hent (by rw [← hid]; exact hin) ha
      · rw [List.map_append, List.nodup_append]
        refine ⟨hkeys, by simp, ?_⟩
        intro a ha hb
        simp only [List.map_cons, List.map_nil, List.mem_singleton] at hb
        subst hb
        exact hin ha
  · rw [if_neg hid, if_neg hid]
    by_cases hin : nodeKey n ∈ m.map Prod.fst
    · obtain ⟨m1, w, m2, hm, _, hs⟩ := mapSet_split m (nodeKey n)
        ("n" ++ toString c) hin
      rw [hs]
      have hsub : ∀ p, p ∈ m1 ∨ p ∈ m2 → p ∈ m := by
        intro p hp
        rw [hm]
        rcases hp with hp | hp
        · exact List.mem_append_left _ hp
        · exact List.mem_append_right _ (List.mem_cons_of_mem _ hp)
      refine ⟨?_, ?_, ?_, by omega⟩
      · intro p hp
        rcases List.mem_append.mp hp with hp | hp
        · have := hent p (hsub p (Or.inl hp))
          exact ⟨this.1, fun hne => by
            obtain ⟨j, h1, h2, h3⟩ := this.2 hne
            exact ⟨j, h1, by omega, h3⟩⟩
        · rcases List.mem_cons.mp hp with hp | hp
          · subst hp
            exact ⟨fun h => absurd h hid, fun _ => ⟨c, hc, by omega, rfl⟩⟩
          · have := hent p (hsub p (Or.inr hp))
            exact ⟨this.1, fun hne => by
              obtain ⟨j, h1, h2, h3⟩ := this.2 hne
              exact ⟨j, h1, by omega, h3⟩⟩
      · have hvm : (m.map Prod.snd) =
            (m1.map Prod.snd) ++ w :: (m2.map Prod.snd) := by
          rw [hm]; simp
        rw [hvm] at hvals
        have h12 := (List.nodup_middle.mp hvals).of_cons
        have hwnot := (List.nodup_middle.mp hvals).not_mem (a := w)
        simp only [List.map_append, List.map_cons]
        rw [List.nodup_middle]
        refine List.Nodup.cons ?_ h12
        intro hmem
        have hfresh := fresh_label_not_mem gid m c hent
        rw [hvm] at hfresh
        rcases List.mem_append.mp hmem with h | h
        · exact hfresh (List.mem_append_left _ h)
        · exact hfresh (List.mem_append_right _ (List.mem_cons_of_mem _ h))
      · have hkm : (m.map Prod.fst) =
            (m1.map Prod.fst) ++ nodeKey n :: (m2.map Prod.fst) := by
          rw [hm]; simp
        rw [hkm] at hkeys
        simpa using hkeys
    · rw [mapSet_append m (nodeKey n) ("n" ++ toString c) hin]
      refine ⟨?_, ?_, ?_, by omega⟩
      · intro p hp
        rcases List.mem_append.mp hp with hp | hp
        · have := hent p hp
          exact ⟨this.1, fun hne => by
            obtain ⟨j, h1, h2, h3⟩ := this.2 hne
            exact ⟨j, h1, by omega, h3⟩⟩
        · simp only [List.mem_singleton] at hp
          subst hp
          exact ⟨fun h => absurd h hid, fun _ => ⟨c, hc, by omega, rfl⟩⟩
      · rw [List.map_append, List.nodup_append]
        refine ⟨hvals, by simp, ?_⟩
        intro a ha hb
        simp only [List.map_cons, List.map_nil, List.mem_singleton] at hb
        subst hb
        exact fresh_label_not_mem gid m c hent ha
      · rw [List.map_append, List.nodup_append]
        refine ⟨hkeys, by simp, ?_⟩
        intro a ha hb
        simp only [List.map_cons, List.map_nil, List.mem_singleton] at hb
        subst hb
        exact hin ha

theorem nmStep_fst_pair (gid : String) (mc : List (String × String) × ℕ)
    (n : Node) : (nmStep gid mc n).1 =
      mapSet mc.1 (nodeKey n)
        (if nodeKey n = gid then "0" else "n" ++ toString mc.2) := by
  simp only [nmStep]
  split_ifs <;> rfl

theorem nmStep_snd_pair (gid : String) (mc : List (String × String) × ℕ)
    (n : Node) : (nmStep gid mc n).2 =
      if nodeKey n = gid then mc.2 else mc.2 + 1 := by
  simp only [nmStep]
  split_ifs <;> rfl

theorem foldl_nmStep_inv (gid : String) : ∀ (nodes : List Node)
    (m : List (String × String)) (c : ℕ),
    (∀ p ∈ m, (p.1 = gid → p.2 = "0") ∧
      (p.1 ≠ gid → ∃ j, 1 ≤ j ∧ j < c ∧ p.2 = "n" ++ toString j)) →
    (m.map Prod.snd).Nodup → (m.map Prod.fst).Nodup → 1 ≤ c →
    (∀ p ∈ (List.foldl (nmStep gid) (m, c) nodes).1, (p.1 = gid → p.2 = "0") ∧
      (p.1 ≠ gid → ∃ j, 1 ≤ j ∧ j < (List.foldl (nmStep gid) (m, c) nodes).2 ∧
        p.2 = "n" ++ toString j)) ∧
    ((List.foldl (nmStep gid) (m, c) nodes).1.map Prod.snd).Nodup ∧
    ((List.foldl (nmStep gid) (m, c) nodes).1.map Prod.fst).Nodup ∧
    1 ≤ (List.foldl (nmStep gid) (m, c) nodes).2 := by
  intro nodes
  induction nodes with
  | nil => intro m c h1 h2 h3 h4; exact ⟨h1, h2, h3, h4⟩
  | cons x rest ih =>
    intro m c h1 h2 h3 h4
    simp only [List.foldl]
    obtain ⟨g1, g2, g3, g4⟩ := nmStep_inv gid m c x h1 h2 h3 h4
    exact ih (nmStep gid (m, c) x).1 (nmStep gid (m, c) x).2 g1 g2 g3 g4

theorem mem_keys_mapSet (m : List (String × String)) (k0 v k : String) :
    k ∈ (mapSet m k0 v).map Prod.fst ↔ k ∈ m.map Prod.fst ∨ k = k0 := by
  by_cases h : k0 ∈ m.map Prod.fst
  · obtain ⟨m1, w, m2, hm, _, hs⟩ := mapSet_split m k0 v h
    rw [hs, hm]
    simp only [List.map_append, List.map_cons, List.mem_append, List.mem_cons]
    tauto
  · rw [mapSet_append m k0 v h]
    simp only [List.map_append, List.map_cons, List.map_nil, List.mem_append,
      List.mem_singleton]

theorem foldl_nmStep_keys (gid : String) : ∀ (nodes : List Node)
    (mc : List (String × String) × ℕ) (k : String),
    k ∈ (List.foldl (nmStep gid) mc nodes).1.map Prod.fst ↔
      k ∈ mc.1.map Prod.fst ∨ k ∈ nodes.map nodeKey := by
  intro nodes
  induction nodes with
  | nil => intro mc k; simp
  | cons x rest ih =>
    intro mc k
    simp only [List.foldl, List.map_cons, List.mem_cons]
    rw [ih (nmStep gid mc x), nmStep_fst_pair, mem_keys_mapSet]
    tauto

theorem foldl_nmStep_ground_stable (gid : String) : ∀ (nodes : List Node)
    (mc : List (String × String) × ℕ),
    mapGet mc.1 gid = some "0" →
    mapGet (List.foldl (nmStep gid) mc nodes).1 gid = some "0" := by
  intro nodes
  induction nodes with
  | nil => intro mc h; exact h
  | cons x rest ih =>
    intro mc h
    simp only [List.foldl]
    refine ih (nmStep gid mc x) ?_
    rw [nmStep_fst_pair]
    by_cases hx : nodeKey x = gid
    · rw [if_pos hx, hx, mapGet_mapSet_self]
    · rw [mapGet_mapSet_ne mc.1 (nodeKey x) gid _ (fun he => hx he.symm)]
      exact h

theorem foldl_nmStep_ground_reach (gid : String) : ∀ (nodes : List Node)
    (mc : List (String × String) × ℕ),
    (∃ n ∈ nodes, nodeKey n = gid) →
    mapGet (List.foldl (nmStep gid) mc nodes).1 gid = some "0" := by
  intro nodes
  induction nodes with
  | nil => intro mc h; obtain ⟨n, hn, _⟩ := h; simp at hn
  | cons x rest ih =>
    intro mc h
    simp only [List.foldl]
    by_cases hx : nodeKey x = gid
    · refine foldl_nmStep_ground_stable gid rest (nmStep gid mc x) ?_
      rw [nmStep_fst_pair, if_pos hx, hx, mapGet_mapSet_self]
    · obtain ⟨n, hn, hkey⟩ := h
      rcases List.mem_cons.mp hn with rfl | hn'
      · exact absurd hkey hx
      · exact ih (nmStep gid mc x) ⟨n, hn', hkey⟩

theorem foldl_nmStep_frame (gid : String) : ∀ (nodes : List Node)
    (mc : List (String × String) × ℕ) (k : String),
    k ∉ nodes.map nodeKey →
    mapGet (List.foldl (nmStep gid) mc nodes).1 k = mapGet mc.1 k := by
  intro nodes
  induction nodes with
  | nil => intro mc k _; rfl
  | cons x rest ih =>
    intro mc k hk
    simp only [List.map_cons, List.mem_cons] at hk
    push_neg at hk
    simp only [List.foldl]
    rw [ih (nmStep gid mc x) k hk.2, nmStep_fst_pair,
      mapGet_mapSet_ne mc.1 (nodeKey x) k _ hk.1]

theorem foldl_nmStep_labels (gid : String) : ∀ (nodes : List Node)
    (mc : List (String × String) × ℕ),
    (nodes.map nodeKey).Nodup →
    ∀ i (hi : i < nodes.length),
    nodeKey (nodes.get ⟨i, hi⟩) ≠ gid →
    mapGet (List.foldl (nmStep gid) mc nodes).1
        (nodeKey (nodes.get ⟨i, hi⟩)) =
      some ("n" ++ toString (mc.2 + (nodes.take i).countP
        (fun nd => decide (nodeKey nd ≠ gid)))) := by
  intro nodes
  induction nodes with
  | nil => intro mc _ i hi; exact absurd hi (Nat.not_lt_zero i)
  | cons x rest ih =>
    intro mc hnd i hi hne
    cases i with
    | zero =>
      simp only [List.foldl, List.get]
      have hnotin : nodeKey x ∉ rest.map nodeKey := by
        simp only [List.map_cons, List.nodup_cons] at hnd
        exact hnd.1
      rw [foldl_nmStep_frame gid rest (nmStep gid mc x) _ hnotin,
        nmStep_fst_pair]
      have hne0 : nodeKey x ≠ gid := hne
      rw [if_neg hne0, mapGet_mapSet_self]
      simp
    | succ j =>
      simp only [List.foldl, List.get]
      have hnd' : (rest.map nodeKey).Nodup := by
        simp only [List.map_cons, List.nodup_cons] at hnd
        exact hnd.2
      have hj : j < rest.length := Nat.lt_of_succ_lt_succ hi
      have hne' : nodeKey (rest.get ⟨j, hj⟩) ≠ gid := hne
      rw [ih (nmStep gid mc x) hnd' j hj hne']
      have hcount : (nmStep gid mc x).2 + (rest.take j).countP
          (fun nd => decide (nodeKey nd ≠ gid)) =
          mc.2 + ((x :: rest).take (j + 1)).countP
            (fun nd => decide (nodeKey nd ≠ gid)) := by
        rw [nmStep_snd_pair, List.take_succ_cons, List.countP_cons]
        by_cases hx : nodeKey x = gid
        · simp [hx]
        · simp [hx]
          omega
      rw [hcount]

/-- C6: in the node-label map built by `convertGraphToNetlist`
(`buildNodeMap`), the ground coordinate maps to label "0"; the generated
labels are pairwise distinct and their number (including "0") equals the
number of distinct node coordinates; and for a node list of distinct
coordinates, the i-th node, when not the ground, maps to "n" followed by
the 1-based count of non-ground nodes among the first i+1 nodes — i.e. a
counter incremented in iteration (first-seen) order. -/
theorem buildNodeMap_ground_and_labels (nodes : List Node) (g : Node)
    (hg : g ∈ nodes) :
    mapGet (buildNodeMap nodes (nodeKey g)).1 (nodeKey g) = some "0" ∧
    ((buildNodeMap nodes (nodeKey g)).1.map Prod.snd).Nodup ∧
    (((buildNodeMap nodes (nodeKey g)).1.map Prod.snd).toFinset.card =
      nodes.toFinset.card) ∧
    (nodes.Nodup → ∀ i (hi : i < nodes.length),
      nodeKey (nodes.get ⟨i, hi⟩) ≠ nodeKey g →
      mapGet (buildNodeMap nodes (nodeKey g)).1
          (nodeKey (nodes.get ⟨i, hi⟩)) =
        some ("n" ++ toString ((nodes.take (i + 1)).countP
          (fun nd => decide (nodeKey nd ≠ nodeKey g))))) := by
  have hfold : buildNodeMap nodes (nodeKey g) =
      List.foldl (nmStep (nodeKey g)) ([], 1) nodes := rfl
  obtain ⟨hent, hvals, hkeys, hc⟩ := foldl_nmStep_inv (nodeKey g) nodes [] 1
    (by simp) (by simp) (by simp) (by omega)
  refine ⟨?_, ?_, ?_, ?_⟩
  · rw [hfold]
    exact foldl_nmStep_ground_reach (nodeKey g) nodes ([], 1) ⟨g, hg, rfl⟩
  · rw [hfold]; exact hvals
  · rw [hfold]
    set L := (List.foldl (nmStep (nodeKey g)) ([], 1) nodes).1 with hL
    have h1 : (L.map Prod.snd).toFinset.card = (L.map Prod.snd).length :=
      List.toFinset_card_of_nodup hvals
    have h2 : (L.map Prod.fst).toFinset.card = (L.map Prod.fst).length :=
      List.toFinset_card_of_nodup hkeys
    have h3 : (L.map Prod.fst).toFinset = (nodes.map nodeKey).toFinset := by
      ext k
      simp only [List.mem_toFinset]
      rw [hL, foldl_nmStep_keys]
      simp
    have h4 : (nodes.map nodeKey).toFinset = nodes.toFinset.image nodeKey := by
      ext k
      simp
    have h5 : (nodes.toFinset.image nodeKey).card = nodes.toFinset.card :=
      Finset.card_image_of_injective nodes.toFinset nodeKey_injective
    rw [h1, List.length_map, ← List.length_map L Prod.fst, ← h2, h3, h4, h5]
  · intro hnodup i hi hne
    rw [hfold]
    have hkeynd : (nodes.map nodeKey).Nodup :=
      hnodup.map nodeKey_injective
    rw [foldl_nmStep_labels (nodeKey g) nodes ([], 1) hkeynd i hi hne]
    have htake : ((nodes.take (i + 1)).countP
        (fun nd => decide (nodeKey nd ≠ nodeKey g))) =
        1 + ((nodes.take i).countP
          (fun nd => decide (nodeKey nd ≠ nodeKey g))) := by
      rw [List.take_succ, List.countP_append]
      have hgetel : nodes[i]? = some (nodes.get ⟨i, hi⟩) := by
        rw [List.getElem?_eq_getElem hi]
        rfl
      rw [hgetel]
      simp only [Option.toList_some, List.countP_cons, List.countP_nil]
      have hp : decide (nodeKey (nodes.get ⟨i, hi⟩) ≠ nodeKey g) = true := by
        simpa using hne
      simp only [hp, if_true]
      omega
    rw [htake]

/-- Witness for C6 on nodes [(0,0),(3,0),(0,10)] with ground (0,10): the
ground maps to "0" and the second node maps to "n2". -/
theorem buildNodeMap_ground_and_labels_witness :
    mapGet (buildNodeMap [⟨0, 0⟩, ⟨3, 0⟩, ⟨0, 10⟩] (nodeKey ⟨0, 10⟩)).1
        (nodeKey (⟨0, 10⟩ : Node)) = some "0" ∧
    mapGet (buildNodeMap [⟨0, 0⟩, ⟨3, 0⟩, ⟨0, 10⟩] (nodeKey ⟨0, 10⟩)).1
        (nodeKey (([⟨0, 0⟩, ⟨3, 0⟩, ⟨0, 10⟩] : List Node).get ⟨1, by decide⟩)) =
      some ("n" ++ toString ((([⟨0, 0⟩, ⟨3, 0⟩, ⟨0, 10⟩] : List Node).take 2).countP
        (fun nd => decide (nodeKey nd ≠ nodeKey (⟨0, 10⟩ : Node))))) :=
  ⟨(buildNodeMap_ground_and_labels [⟨0, 0⟩, ⟨3, 0⟩, ⟨0, 10⟩] ⟨0, 10⟩
      (by decide)).1,
   (buildNodeMap_ground_and_labels [⟨0, 0⟩, ⟨3, 0⟩, ⟨0, 10⟩] ⟨0, 10⟩
      (by decide)).2.2.2 (by decide) 1 (by decide) (by decide)⟩
